import Mathlib

/-!
Verification of the per-user serialization / session-lifecycle engine and the
outbound message segmenter of the `claude-code-line` bot.

Strings are modeled as `List Char` (one entry per character).  JavaScript's
`str.length`, `slice`, `lastIndexOf`, `trimStart` and the regex count
`(chunk.match(/```/g) || []).length` are embedded below as executable Lean
functions on character lists.  The float comparison `breakAt < limit * 0.3`
is embedded as the exact integer comparison `10 * breakAt < 3 * limit`;
for every integer `breakAt` and every realistic `limit` the IEEE-double
comparison used by the source agrees with this exact rational comparison.
-/

abbrev Str := List Char

/-- The backtick character (code point 96). -/
def btick : Char := Char.ofNat 96

/-- A triple-backtick fence marker. -/
def fenceMarker : Str := [btick, btick, btick]

/-- The reopening fence `"```\n"` prepended to the remaining text by the
fence repair in `chunkText`. -/
def fenceOpen : Str := [btick, btick, btick, Char.ofNat 10]

/-- The closing fence `"\n```"` appended to an emitted chunk by the fence
repair in `chunkText`. -/
def fenceClose : Str := [Char.ofNat 10, btick, btick, btick]

/-- ASCII whitespace trimmed by JavaScript's `trimStart` (space, tab,
newline, carriage return, vertical tab, form feed). -/
def jsWhitespace (c : Char) : Bool :=
  c = Char.ofNat 32 || c = Char.ofNat 9 || c = Char.ofNat 10 ||
  c = Char.ofNat 13 || c = Char.ofNat 11 || c = Char.ofNat 12

/-- JavaScript `trimStart`: drop leading whitespace. -/
def trimStart (s : Str) : Str := s.dropWhile jsWhitespace

/-- The number of matches of the regex `/```/g`: non-overlapping
triple-backtick occurrences, scanned left to right. -/
def countFence : Str → Nat
  | c :: d :: e :: rest =>
    if c = btick ∧ d = btick ∧ e = btick then countFence rest + 1
    else countFence (d :: e :: rest)
  | _ => 0

/-- The indices at or before `pos` holding character `c`, in increasing
order. -/
def liiCandidates (c : Char) (s : Str) (pos : Nat) : List Nat :=
  (List.range (min (pos + 1) s.length)).filter (fun i => s.get? i = some c)

/-- JavaScript `s.lastIndexOf(c, pos)` for a one-character needle: the
largest index `i ≤ pos` with `s[i] = c`, or `-1` if there is none. -/
def jsLastIndexOf (c : Char) (s : Str) (pos : Nat) : Int :=
  match (liiCandidates c s pos).getLast? with
  | none => -1
  | some i => (i : Int)

/-- The candidate break index after the newline/space cascade: the last
newline at or before `limit`, replaced by the last space at or before
`limit` when it falls below the 30% threshold. -/
def breakCand (limit : Nat) (s : Str) : Int :=
  let b1 : Int := jsLastIndexOf (Char.ofNat 10) s limit
  if 10 * b1 < 3 * (limit : Int) then jsLastIndexOf (Char.ofNat 32) s limit
  else b1

/-- The break position chosen by one iteration of `chunkText`'s loop:
last newline at or before `limit`, else (past the 30% threshold) the last
space at or before `limit`, else the hard cut at exactly `limit`. -/
def breakPos (limit : Nat) (s : Str) : Nat :=
  if 10 * breakCand limit s < 3 * (limit : Int) then limit
  else (breakCand limit s).toNat

/-- One iteration of `chunkText`'s `while` loop on a remaining text longer
than `limit`: peel `remaining.slice(0, breakAt)`, trim the rest, and if the
peeled chunk contains an odd number of fences, append a closing fence to the
emitted chunk and prepend a reopening fence to the remaining text.
Returns `(emitted chunk, new remaining text)`. -/
def chunkStep (limit : Nat) (remaining : Str) : Str × Str :=
  let b := breakPos limit remaining
  let chunk := remaining.take b
  let rest := trimStart (remaining.drop b)
  if countFence chunk % 2 ≠ 0 then (chunk ++ fenceClose, fenceOpen ++ rest)
  else (chunk, rest)

/-- The `while remaining.length > 0` loop of `chunkText`, with explicit
fuel: `some chunks` reproduces a terminating run of the source loop, and
`none` means the loop did not finish within `fuel` iterations (the source
loop can genuinely run forever for small `limit`). -/
def chunkLoop (limit : Nat) : Nat → Str → Option (List Str)
  | _, [] => some []
  | 0, _ :: _ => none
  | fuel + 1, c :: cs =>
    if (c :: cs).length ≤ limit then some [c :: cs]
    else
      Option.map (fun res => (chunkStep limit (c :: cs)).1 :: res)
        (chunkLoop limit fuel (chunkStep limit (c :: cs)).2)

/-- `chunkText(text, limit)` from the source: texts that fit are returned
as the sole chunk, otherwise the peel loop runs (with explicit fuel). -/
def chunkText (text : Str) (limit : Nat) (fuel : Nat) : Option (List Str) :=
  if text.length ≤ limit then some [text] else chunkLoop limit fuel text

/-- The LINE platform text-size limit used as the default `limit`. -/
def LINE_MAX_TEXT : Nat := 5000

/-!
Decomposition view of a terminating `chunkText` run: each emitted chunk is
`(injected reopening fence if the previous chunk was repaired) ++ core ++
(appended closing fence if this chunk was repaired)`, and the original text
is the cores joined by the whitespace runs removed at the chunk boundaries.
-/

/-- Reassemble the original text from `(core, boundary whitespace, flag)`
triples: the cores joined by the whitespace removed at each boundary. -/
def weave : List (Str × Str × Bool) → Str
  | [] => []
  | p :: rest => p.1 ++ p.2.1 ++ weave rest

/-- Rebuild the emitted chunks from `(core, boundary whitespace, flag)`
triples: a repaired chunk gets the closing fence appended, and the chunk
after a repaired one gets the reopening fence prepended. -/
def decorate : Bool → List (Str × Str × Bool) → List Str
  | _, [] => []
  | pending, p :: rest =>
    ((if pending then fenceOpen else []) ++ p.1 ++
      (if p.2.2 then fenceClose else [])) :: decorate p.2.2 rest

/-!
The per-user queue (`enqueueForUser`).  The source keeps, per user, the tail
of a promise chain; each enqueue schedules the operation with
`prev.then(fn, fn)` (so it runs after the previous settlement, fulfilled or
rejected) and advances the tail to `next.then(() => {}, () => {})` (a guard
promise that fulfills once the operation settles, either way).  The model is
a small-step semantics of that promise graph for one user's chain: operation
node `k` hangs off guard promise `k` (guard 0 is the initial resolved
promise), and guard `k+1` hangs off operation `k`.  A `then` node runs its
callback when its parent settles on a side for which a handler was attached,
and `opThen`/`guardThen` record the handlers the source attaches (both
sides, in both cases).  `outcomes` prescribes each operation's settlement
(`true` = fulfilled, `false` = rejected); the environment settles a running
operation at an arbitrary later step.
-/

/-- Status of one enqueued operation. -/
inductive OpSt
  | waiting
  | running
  | settled
deriving DecidableEq, Repr

/-- Which settlement sides of the parent promise a `then` node handles. -/
structure ThenNode where
  onFulfilled : Bool
  onRejected : Bool

/-- `prev.then(fn, fn)`: the operation is scheduled on both sides. -/
def opThen : ThenNode := ⟨true, true⟩

/-- `next.then(() => {}, () => {})`: the chain tail swallows both sides. -/
def guardThen : ThenNode := ⟨true, true⟩

/-- Whether a `then` node has a handler for a parent settled with `ok`. -/
def handlerFor (t : ThenNode) (ok : Bool) : Bool :=
  if ok then t.onFulfilled else t.onRejected

/-- Observable events of a queue run: operation `k` starts / settles. -/
inductive QEvent
  | start (k : Nat)
  | settle (k : Nat)
deriving DecidableEq, Repr

/-- State of one user's chain: status of each operation node and of each
guard promise (`none` pending, `some ok` settled with that outcome). -/
structure QState where
  ops : Nat → OpSt
  guards : Nat → Option Bool

/-- Initial state: no operation started; guard 0 is `Promise.resolve()`. -/
def qinit : QState :=
  ⟨fun _ => OpSt.waiting, fun i => if i = 0 then some true else none⟩

/-- One event-loop step of the chain for operations `0..outcomes.length-1`:
an operation starts when its parent guard has settled on a handled side, a
running operation settles with its prescribed outcome, and a guard promise
settles (per its handlers) once its operation has settled. -/
inductive QStep (outcomes : List Bool) : QState → List QEvent → QState → Prop
  | start (s : QState) (k : Nat) (ok : Bool)
      (hk : k < outcomes.length)
      (hg : s.guards k = some ok)
      (hh : handlerFor opThen ok = true)
      (ho : s.ops k = OpSt.waiting) :
      QStep outcomes s [QEvent.start k]
        ⟨Function.update s.ops k OpSt.running, s.guards⟩
  | settle (s : QState) (k : Nat)
      (hk : k < outcomes.length)
      (ho : s.ops k = OpSt.running) :
      QStep outcomes s [QEvent.settle k]
        ⟨Function.update s.ops k OpSt.settled, s.guards⟩
  | guard (s : QState) (k : Nat)
      (hk : k < outcomes.length)
      (ho : s.ops k = OpSt.settled)
      (hg : s.guards (k + 1) = none) :
      QStep outcomes s []
        ⟨s.ops, Function.update s.guards (k + 1)
          (some (if handlerFor guardThen (outcomes.getD k true) then true
                 else outcomes.getD k true))⟩

/-- Multi-step reachability, accumulating the emitted events. -/
inductive Reach (outcomes : List Bool) : QState → List QEvent → QState → Prop
  | refl (s : QState) : Reach outcomes s [] s
  | step (s0 s1 s2 : QState) (tr ev : List QEvent) :
      Reach outcomes s0 tr s1 → QStep outcomes s1 ev s2 →
      Reach outcomes s0 (tr ++ ev) s2

/-- The strictly sequential event trace: operation `k` starts and settles
before operation `k+1` starts. -/
def canonical (n : Nat) : List QEvent :=
  (List.range n).flatMap (fun i => [QEvent.start i, QEvent.settle i])

/-- The state after the first `a` operations have fully completed. -/
def qdone (a : Nat) : QState :=
  ⟨fun i => if i < a then OpSt.settled else OpSt.waiting,
   fun i => if i ≤ a then some true else none⟩

/-!
The queue invariant: every state reachable from `qinit` is "the first `a`
operations completed, plus possibly one running operation `a`", its settled
guards are all fulfilled (the tail `then(() => {}, () => {})` swallows
rejections), and its trace is the corresponding prefix of `canonical`.
-/

def QInv (outcomes : List Bool) (s : QState) (tr : List QEvent) : Prop :=
  ∃ a r, a + (if r then 1 else 0) ≤ outcomes.length ∧
    (∀ i, s.ops i = if i < a then OpSt.settled
      else if r = true ∧ i = a then OpSt.running else OpSt.waiting) ∧
    s.guards 0 = some true ∧
    (∀ i, s.guards i = none ∨ s.guards i = some true) ∧
    (∀ i, s.guards i = some true → i ≤ a) ∧
    tr = canonical a ++ (if r then [QEvent.start a] else [])

/-!
The session store and Claude gateway (`runClaude` in `src/index.ts`).  One
`runClaude` call spawns the CLI and reads its output; the model consumes
the head of an abstract list of backend outputs per spawn.  `parsed` is a
successfully `JSON.parse`d stdout (optional fields model absent JSON keys),
`unparsed` is a stdout/stderr pair whose stdout failed to parse, and
`threw` is an exception while running the subprocess.  The returned triple
is (result or thrown error, the user's session entry afterwards, number of
spawns consumed); `none` means the model ran out of prescribed outputs.
-/

/-- A user's session entry: conversation id (nullable) and cumulative
spend. -/
structure UserSession where
  sessionId : Option Str
  totalCost : ℚ
deriving DecidableEq

/-- One backend output as consumed by a single `claude` spawn. -/
inductive ClaudeOutput
  | parsed (sid : Option Str) (cost : Option ℚ) (res : Option Str)
      (isErr : Option Bool)
  | unparsed (stdout stderr : Str)
  | threw (msg : Str)

/-- The record `runClaude` resolves with. -/
structure RunResult where
  result : Str
  sessionId : Str
  cost : ℚ
  isError : Bool
deriving DecidableEq

/-- Whether `pat` occurs as a contiguous substring of `s`
(JavaScript `String.prototype.includes`). -/
def containsSub (pat s : Str) : Bool :=
  (List.range (s.length + 1)).any (fun i => pat.isPrefixOf (s.drop i))

def noConvFound : Str := "No conversation found".toList

def notFoundStr : Str := "not found".toList

def claudeNoOutput : Str := "Claude process returned no output".toList

def doneNoText : Str := "Done. (no text output)".toList

/-- JavaScript truthiness of `session?.sessionId`: a session exists and its
id is a non-empty string. -/
def sessionTruthy : Option UserSession → Bool
  | none => false
  | some s =>
    match s.sessionId with
    | none => false
    | some sid => !sid.isEmpty

/-- `session?.totalCost ?? 0`. -/
def sessionCost : Option UserSession → ℚ
  | none => 0
  | some s => s.totalCost

/-- `session?.sessionId ?? ""`. -/
def sessionIdOrEmpty : Option UserSession → Str
  | none => []
  | some s => s.sessionId.getD []

/-- JavaScript `a || b` on strings: `b` if `a` is empty. -/
def strOrElse (a b : Str) : Str := if a.isEmpty then b else a

/-- The source's session-expired detection on unparseable stdout:
`stdout.includes("No conversation found") || stdout.includes("not found")`. -/
def expiredMarker (stdout : Str) : Bool :=
  containsSub noConvFound stdout || containsSub notFoundStr stdout

/-- `runClaude(userId, prompt, isRetry)` from `src/index.ts`, over the
user's session entry and the list of backend outputs.  On an unparseable
stdout with a session-expired marker and a truthy stored session id (and
not already retrying), the session entry is deleted and the call recurses
once with `isRetry = true`. -/
def runClaude : Option UserSession → List ClaudeOutput → Bool →
    Option (Except Str RunResult × Option UserSession × Nat)
  | _, [], _ => none
  | sess, ClaudeOutput.threw m :: _, _ => some (Except.error m, sess, 1)
  | sess, ClaudeOutput.unparsed stdout stderr :: rest, isRetry =>
    if !isRetry && sessionTruthy sess && expiredMarker stdout then
      match runClaude none rest true with
      | none => none
      | some (r, s2, n) => some (r, s2, n + 1)
    else
      some (Except.ok ⟨strOrElse stdout (strOrElse stderr claudeNoOutput),
        sessionIdOrEmpty sess, 0, true⟩, sess, 1)
  | sess, ClaudeOutput.parsed sid cost res isErr :: _, _ =>
    some (Except.ok ⟨res.getD doneNoText, sid.getD (sessionIdOrEmpty sess),
        cost.getD 0, isErr.getD false⟩,
      some ⟨some (sid.getD (sessionIdOrEmpty sess)),
        sessionCost sess + cost.getD 0⟩, 1)

/-!
`sendPrompt` from the remote-server variant (`src/unnamed/part_000`).  The
backend is a list of responses consumed in request order: a create-session
request consumes a `createOk`/`createErr`, a message request consumes a
`msgOk`/`msgErr`.  A mismatched head (no response of the expected kind)
yields `none`, as does running out of `fuel` on the retry recursion — the
source function has no retry bound at all.
-/

structure SrvSession where
  sessionId : Str
  totalCost : ℚ
deriving DecidableEq

inductive SrvEvent
  | createOk (id : Str)
  | createErr (msg : Str)
  | msgOk (cost : Option ℚ) (res : Option Str) (isErr : Option Bool)
  | msgErr (msg : Str)

structure SPResult where
  result : Str
  cost : ℚ
  isError : Bool
deriving DecidableEq

def noConvStr : Str := "No conversation".toList

def srv404 : Str := "404".toList

/-- The remote variant's session-gone detection:
`err.message.includes("404") || includes("not found") || includes("No conversation")`. -/
def goneMarker (m : Str) : Bool :=
  containsSub srv404 m || containsSub notFoundStr m || containsSub noConvStr m

/-- Result of one message request in `sendPrompt`. -/
inductive MsgStep
  | noResp
  | done (r : Except Str SPResult) (ns : Option SrvSession) (k : Nat)
  | retry (rest : List SrvEvent) (k : Nat)

/-- Send the prompt to an existing session: accumulate cost on success,
propagate a non-marker error, request a retry on a session-gone error
(after which the source deletes the session entry). -/
def msgStep (s : SrvSession) : List SrvEvent → MsgStep
  | [] => MsgStep.noResp
  | SrvEvent.msgOk cost res isErr :: _ =>
    MsgStep.done (Except.ok ⟨res.getD doneNoText, cost.getD 0, isErr.getD false⟩)
      (some ⟨s.sessionId, s.totalCost + cost.getD 0⟩) 1
  | SrvEvent.msgErr m :: rest =>
    if goneMarker m then MsgStep.retry rest 1
    else MsgStep.done (Except.error m) (some s) 1
  | _ :: _ => MsgStep.noResp

/-- `sendPrompt(userId, prompt)` from `src/unnamed/part_000`: create a
session if absent, send the prompt, and on a session-gone error delete the
local session and recurse — with no `isRetry` guard, hence the explicit
`fuel` here. -/
def sendPrompt : Nat → Option SrvSession → List SrvEvent →
    Option (Except Str SPResult × Option SrvSession × Nat)
  | _, none, [] => none
  | _, none, SrvEvent.createErr m :: _ => some (Except.error m, none, 1)
  | fuel, none, SrvEvent.createOk id :: evs =>
    (match msgStep ⟨id, 0⟩ evs with
     | MsgStep.noResp => none
     | MsgStep.done r ns k => some (r, ns, k + 1)
     | MsgStep.retry rest _ =>
       match fuel with
       | 0 => none
       | f + 1 =>
         Option.map (fun p => (p.1, p.2.1, p.2.2 + 2)) (sendPrompt f none rest))
  | _, none, SrvEvent.msgOk _ _ _ :: _ => none
  | _, none, SrvEvent.msgErr _ :: _ => none
  | fuel, some s, evs =>
    match msgStep s evs with
    | MsgStep.noResp => none
    | MsgStep.done r ns k => some (r, ns, k)
    | MsgStep.retry rest _ =>
      match fuel with
      | 0 => none
      | f + 1 =>
        Option.map (fun p => (p.1, p.2.1, p.2.2 + 1)) (sendPrompt f none rest)
termination_by fuel _ _ => fuel

def badGone : Str := "Server 404: No conversation".toList

/-- A backend that answers every create with a fresh session and every
message with a session-gone error, `n` times over. -/
def badEvs : Nat → List SrvEvent
  | 0 => []
  | n + 1 => SrvEvent.createOk [] :: SrvEvent.msgErr badGone :: badEvs n

/-!
The command router (`handleTextMessage`).  Inbound text is lower-cased and
compared against the control commands before falling through to the queued
prompt path.  Replies whose text is a fixed literal are modeled as that
literal; replies that render session data (`/sessions`, `/cost`) are modeled
structurally as the data they render.  `activeProc` is the user's entry in
`activeProcesses`; `killed` records the process killed by `/abort`, if any.
-/

/-- The reply or action produced by the command router. -/
inductive RouteResult
  | replyText (msg : Str)
  | replySession (sid : Str) (cost : ℚ) (running : Bool)
  | replyCost (cost : ℚ)
  | enqueuePrompt (prompt : Str)
deriving DecidableEq

/-- Router outcome: the reply/action, the user's session entry and
active-process entry afterwards, and the process killed (if any). -/
structure Routed where
  result : RouteResult
  sess : Option UserSession
  activeProc : Option Nat
  killed : Option Nat
deriving DecidableEq

/-- JavaScript `toLowerCase` on ASCII text. -/
def jsToLower (s : Str) : Str := s.map Char.toLower

def newCmd : Str := "/new".toList

def abortCmd : Str := "/abort".toList

def sessionsCmd : Str := "/sessions".toList

def costCmd : Str := "/cost".toList

def clearedMsg : Str := "Session cleared. Next message starts a new session.".toList

def cancelledMsg : Str := "Prompt cancelled.".toList

def noActiveMsg : Str := "No active prompt.".toList

def noSessionStartMsg : Str := "No active session. Send a message to start one.".toList

def noSessionMsg : Str := "No active session.".toList

/-- `handleTextMessage` from `src/index.ts`, restricted to the command
dispatch (the enqueued prompt path is modeled by `runClaude` above). -/
def handleTextMessage (sess : Option UserSession) (active : Option Nat)
    (text : Str) : Routed :=
  if jsToLower text = newCmd then
    ⟨RouteResult.replyText clearedMsg, none, active, none⟩
  else if jsToLower text = abortCmd then
    match active with
    | some p => ⟨RouteResult.replyText cancelledMsg, sess, none, some p⟩
    | none => ⟨RouteResult.replyText noActiveMsg, sess, none, none⟩
  else if jsToLower text = sessionsCmd then
    if sessionTruthy sess then
      ⟨RouteResult.replySession (sessionIdOrEmpty sess) (sessionCost sess)
        active.isSome, sess, active, none⟩
    else
      ⟨RouteResult.replyText noSessionStartMsg, sess, active, none⟩
  else if jsToLower text = costCmd then
    match sess with
    | some s => ⟨RouteResult.replyCost s.totalCost, sess, active, none⟩
    | none => ⟨RouteResult.replyText noSessionMsg, sess, active, none⟩
  else
    ⟨RouteResult.enqueuePrompt text, sess, active, none⟩

/-!
Error surfacing for a forwarded prompt.  The enqueued operation formats a
thrown error as `` `Error: ${err?.message?.slice(0, 200) ?? "Unknown
error"}` `` and an `isError` result as `` `Error: ${result}` ``, and hands
the text to `sendMessage`, which pushes it chunk by chunk via `chunkText`
at the default limit of 5000.
-/

/-- An error outcome of a forwarded prompt: an exception (with optional
message) or a result flagged `isError`. -/
inductive PromptErrOutcome
  | thrownMsg (msg : Option Str)
  | errResult (result : Str)

def errLabel : Str := "Error: ".toList

def unknownErrMsg : Str := "Unknown error".toList

/-- The text surfaced to the user for an error outcome of a forwarded
prompt. -/
def userErrorText : PromptErrOutcome → Str
  | PromptErrOutcome.thrownMsg m =>
    errLabel ++ (match m with
      | some s => s.take 200
      | none => unknownErrMsg)
  | PromptErrOutcome.errResult r => errLabel ++ r

/-- The per-push chunks produced by `sendMessage` for an outbound text:
`chunkText` at the default LINE limit. -/
def sendMessageChunks (text : Str) : List Str :=
  (chunkText text LINE_MAX_TEXT text.length).getD []

/-!
Concrete inputs used by the counterexamples and witnesses below.
-/

def c2Text : Str := "```abcdef ghijk".toList

def c2ChunkA : Str := "```abcdef\n```".toList

def c2ChunkB : Str := "```\nghijk".toList

def c3Text : Str := "aaaa\nbb".toList

def c3ChunkA : Str := "aaaa".toList

def c3ChunkB : Str := "bb".toList

def c3WitText : Str := "aaaa bbbb cccc defg".toList

def c3WitA : Str := "aaaa bbbb cccc".toList

def c3WitB : Str := "defg".toList

def c4Text : Str := "```one two\nthree fghij klmno".toList

def c4ChunkA : Str := "```one two\n```".toList

def c4ChunkB : Str := "```\nthree\n```".toList

def c4ChunkC : Str := "```\nfghij\n```".toList

def c4ChunkD : Str := "```\nklmno".toList

def c7AbortMixed : Str := "/Abort".toList

def c8Short : Str := "x".toList

/-!
Lemmas about `jsLastIndexOf` and `breakPos`.
-/

theorem pairwise_lt_le_getLast {l : List Nat}
    (hl : l.Pairwise (fun x y => x < y)) :
    ∀ a ∈ l, ∀ b, l.getLast? = some b → a ≤ b := by
  induction l with
  | nil => intro a ha; simp at ha
  | cons x t ih =>
    intro a ha b hb
    rcases List.pairwise_cons.mp hl with ⟨hx, ht⟩
    cases t with
    | nil =>
      simp at ha hb
      omega
    | cons y t' =>
      rw [List.getLast?_cons_cons] at hb
      rcases List.mem_cons.mp ha with rfl | hat
      · exact le_of_lt (hx b (List.mem_of_mem_getLast? (by simp [hb])))
      · exact ih ht a hat b hb

theorem liiCandidates_pairwise (c : Char) (s : Str) (pos : Nat) :
    (liiCandidates c s pos).Pairwise (fun x y => x < y) :=
  (List.pairwise_lt_range _).filter _

theorem jsLastIndexOf_le (c : Char) (s : Str) (pos : Nat) :
    jsLastIndexOf c s pos ≤ (pos : Int) := by
  unfold jsLastIndexOf
  cases hL : (liiCandidates c s pos).getLast? with
  | none => simp; omega
  | some i =>
    have hi : i ∈ liiCandidates c s pos :=
      List.mem_of_mem_getLast? (by simp [hL])
    have hr : i < min (pos + 1) s.length :=
      List.mem_range.mp (List.mem_filter.mp hi).1
    simp
    omega

theorem le_jsLastIndexOf (c : Char) (s : Str) (pos i : Nat)
    (h1 : i ≤ pos) (h2 : i < s.length) (h3 : s.get? i = some c) :
    (i : Int) ≤ jsLastIndexOf c s pos := by
  have hi : i ∈ liiCandidates c s pos := by
    apply List.mem_filter.mpr
    refine ⟨List.mem_range.mpr (by omega), ?_⟩
    simp only [decide_eq_true_eq]
    exact h3
  unfold jsLastIndexOf
  cases hL : (liiCandidates c s pos).getLast? with
  | none =>
    rw [List.getLast?_eq_none] at hL
    rw [hL] at hi
    simp at hi
  | some b =>
    have := pairwise_lt_le_getLast (liiCandidates_pairwise c s pos) i hi b hL
    simp
    omega

theorem breakCand_le (limit : Nat) (s : Str) :
    breakCand limit s ≤ (limit : Int) := by
  have h1 := jsLastIndexOf_le (Char.ofNat 10) s limit
  have h2 := jsLastIndexOf_le (Char.ofNat 32) s limit
  unfold breakCand
  dsimp only
  split_ifs <;> omega

theorem breakPos_le (limit : Nat) (s : Str) : breakPos limit s ≤ limit := by
  have h := breakCand_le limit s
  unfold breakPos
  split_ifs with ha
  · exact le_refl _
  · omega

theorem breakPos_lower (limit : Nat) (s : Str) :
    3 * (limit : Int) ≤ 10 * (breakPos limit s : Int) ∨
    breakPos limit s = limit := by
  unfold breakPos
  split_ifs with ha
  · exact Or.inr rfl
  · left
    omega

theorem breakPos_ge5 (limit : Nat) (s : Str) (h14 : 14 ≤ limit) :
    5 ≤ breakPos limit s := by
  rcases breakPos_lower limit s with h | h
  · omega
  · omega

theorem breakPos_pos (limit : Nat) (s : Str) (h1 : 1 ≤ limit) :
    1 ≤ breakPos limit s := by
  rcases breakPos_lower limit s with h | h
  · omega
  · omega

theorem breakPos_fenceOpen_ge3 (limit : Nat) (rest : Str) (h3 : 3 ≤ limit) :
    3 ≤ breakPos limit (fenceOpen ++ rest) := by
  have hw : (3 : Int) ≤ jsLastIndexOf (Char.ofNat 10) (fenceOpen ++ rest) limit := by
    apply le_jsLastIndexOf _ _ _ _ h3
    · simp [fenceOpen]
    · rw [List.get?_append (by simp [fenceOpen])]
      rfl
  have hsp := jsLastIndexOf_le (Char.ofNat 32) (fenceOpen ++ rest) limit
  have hcand : (3 : Int) ≤ breakCand limit (fenceOpen ++ rest) ∨
      (30 : Int) < 3 * (limit : Int) := by
    unfold breakCand
    dsimp only
    split_ifs with hb1
    · right
      omega
    · left
      exact hw
  unfold breakPos
  split_ifs with ha
  · exact h3
  · rcases hcand with h | h <;> omega

/-!
Lemmas about `chunkStep` and `chunkLoop`.
-/

theorem trimStart_length_le (s : Str) : (trimStart s).length ≤ s.length :=
  (List.dropWhile_sublist _).length_le

theorem chunkStep_snd_le (limit : Nat) (rem : Str) (h14 : 14 ≤ limit)
    (hlen : limit < rem.length) :
    (chunkStep limit rem).2.length + 1 ≤ rem.length := by
  have h5 := breakPos_ge5 limit rem h14
  have hle := breakPos_le limit rem
  have htrim := trimStart_length_le (rem.drop (breakPos limit rem))
  rw [List.length_drop] at htrim
  unfold chunkStep
  dsimp only
  split_ifs with h
  · dsimp only
    simp only [List.length_append]
    have hfo : fenceOpen.length = 4 := rfl
    omega
  · dsimp only
    omega

theorem chunkLoop_isSome (limit : Nat) (h14 : 14 ≤ limit) :
    ∀ fuel rem, rem.length ≤ fuel → (chunkLoop limit fuel rem).isSome := by
  intro fuel
  induction fuel with
  | zero =>
    intro rem h
    have hnil : rem = [] := List.length_eq_zero.mp (by omega)
    subst hnil
    simp [chunkLoop]
  | succ f ih =>
    intro rem h
    cases rem with
    | nil => simp [chunkLoop]
    | cons c cs =>
      by_cases hle : (c :: cs).length ≤ limit
      · rw [chunkLoop, if_pos hle]
        rfl
      · have hstep := chunkStep_snd_le limit (c :: cs) h14 (by omega)
        rw [chunkLoop, if_neg hle]
        have hmap : ∀ (o : Option (List Str)) (g : List Str → List Str),
            (o.map g).isSome = o.isSome := by
          intro o g
          cases o <;> rfl
        rw [hmap]
        exact ih _ (by omega)

theorem chunkLoop_chunk_le (limit : Nat) :
    ∀ fuel rem cs, chunkLoop limit fuel rem = some cs →
    ∀ c ∈ cs, c.length ≤ limit ∨
      ∃ core, c = core ++ fenceClose ∧ core.length ≤ limit := by
  intro fuel
  induction fuel with
  | zero =>
    intro rem cs h c hc
    cases rem with
    | nil =>
      simp [chunkLoop] at h
      subst h
      simp at hc
    | cons a as => simp [chunkLoop] at h
  | succ f ih =>
    intro rem cs h c hc
    cases rem with
    | nil =>
      simp [chunkLoop] at h
      subst h
      simp at hc
    | cons a as =>
      by_cases hle : (a :: as).length ≤ limit
      · rw [chunkLoop, if_pos hle] at h
        cases Option.some.inj h
        rcases List.mem_singleton.mp hc with rfl
        exact Or.inl hle
      · rw [chunkLoop, if_neg hle] at h
        rcases Option.map_eq_some'.mp h with ⟨res, hres, rfl⟩
        have hchunk : (List.take (breakPos limit (a :: as)) (a :: as)).length ≤ limit := by
          rw [List.length_take]
          exact le_trans (min_le_left _ _) (breakPos_le limit (a :: as))
        rcases List.mem_cons.mp hc with rfl | hmem
        · unfold chunkStep
          dsimp only
          split_ifs with hodd
          · exact Or.inr ⟨_, rfl, hchunk⟩
          · exact Or.inl hchunk
        · exact ih _ res hres c hmem

/-- C9: for every text whose length is at most `limit`, `chunkText`
returns the one-element list `[text]`; in particular the empty string
yields a single empty chunk and a text of exactly `limit` characters is
returned unsplit. -/
theorem chunkText_fits_single (text : Str) (limit fuel : Nat)
    (h : text.length ≤ limit) : chunkText text limit fuel = some [text] := by
  unfold chunkText
  rw [if_pos h]

theorem chunkText_fits_single_witness :
    chunkText [] 5000 0 = some [[]] ∧
    chunkText (List.replicate 4 (Char.ofNat 97)) 4 0 =
      some [List.replicate 4 (Char.ofNat 97)] :=
  ⟨chunkText_fits_single [] 5000 0 (by decide),
   chunkText_fits_single (List.replicate 4 (Char.ofNat 97)) 4 0 (by decide)⟩

theorem chunkText_isSome (text : Str) (limit : Nat) (h14 : 14 ≤ limit) :
    (chunkText text limit text.length).isSome = true := by
  unfold chunkText
  split_ifs with h
  · rfl
  · exact chunkLoop_isSome limit h14 text.length text (le_refl _)

/-- C10: for every limit ≥ 14 (in particular the default 5000),
`chunkText` terminates on every input within `text.length` loop
iterations: every peel removes at least 30% of `limit` (≥ 5) characters
while the fence repair re-adds at most 4, so the remaining text strictly
shrinks. -/
theorem chunkText_terminates (text : Str) (limit : Nat) (h14 : 14 ≤ limit) :
    (chunkText text limit text.length).isSome = true :=
  chunkText_isSome text limit h14

theorem chunkText_terminates_witness :
    (chunkText (List.replicate 40 (Char.ofNat 97)) 14
      (List.replicate 40 (Char.ofNat 97) : Str).length).isSome = true :=
  chunkText_terminates (List.replicate 40 (Char.ofNat 97)) 14 (by decide)

/-- C2 counterexample: at limit 10 the input `"```abcdef ghijk"` is split
at the space at index 9 (not a hard cut), and the fence repair appends a
closing fence, so the first emitted chunk has 13 > 10 characters — neither
within the limit nor an exactly-`limit` hard cut. -/
theorem chunkText_c2_counterexample :
    chunkText c2Text 10 15 = some [c2ChunkA, c2ChunkB] ∧
    c2ChunkA.length = 13 ∧ ¬(c2ChunkA.length ≤ 10 ∨ c2ChunkA.length = 10) := by
  refine ⟨by decide, by decide, by decide⟩

theorem chunkText_chunk_le (text : Str) (limit fuel : Nat) (cs : List Str)
    (h : chunkText text limit fuel = some cs) :
    ∀ c ∈ cs, c.length ≤ limit + 4 ∧
      (limit < c.length →
        ∃ core, c = core ++ fenceClose ∧ core.length ≤ limit) := by
  intro c hc
  unfold chunkText at h
  split_ifs at h with hle
  · cases Option.some.inj h
    rcases List.mem_singleton.mp hc with rfl
    exact ⟨by omega, fun hgt => absurd hle (by omega)⟩
  · rcases chunkLoop_chunk_le limit fuel text cs h c hc with hsmall | ⟨core, rfl, hcore⟩
    · exact ⟨by omega, fun hgt => absurd hsmall (by omega)⟩
    · have hfc : fenceClose.length = 4 := rfl
      rw [List.length_append, hfc]
      exact ⟨by omega, fun _ => ⟨core, rfl, hcore⟩⟩

/-- C2 (amended): every chunk of a terminating `chunkText` run has length
at most `limit + 4`; a chunk longer than `limit` is always a peeled chunk
of length ≤ `limit` with the 4-character closing fence `"\n```"` appended
by the fence repair. -/
theorem chunkText_chunk_bound (text : Str) (limit fuel : Nat) (cs : List Str)
    (h : chunkText text limit fuel = some cs) :
    ∀ c ∈ cs, c.length ≤ limit + 4 ∧
      (limit < c.length →
        ∃ core, c = core ++ fenceClose ∧ core.length ≤ limit) :=
  chunkText_chunk_le text limit fuel cs h

theorem chunkText_chunk_bound_witness :
    c2ChunkA.length ≤ 10 + 4 ∧
      (10 < c2ChunkA.length →
        ∃ core, c2ChunkA = core ++ fenceClose ∧ core.length ≤ 10) :=
  chunkText_chunk_bound c2Text 10 15 [c2ChunkA, c2ChunkB] (by decide)
    c2ChunkA (by decide)

/-- C3 counterexample: `"aaaa\nbb"` at limit 5 contains no backtick, so no
fence-repair markers are injected, yet the concatenation of the returned
chunks is `"aaaabb"` — the newline removed by `trimStart` at the chunk
boundary is lost, so the original text is not reproduced. -/
theorem chunkText_c3_counterexample :
    chunkText c3Text 5 7 = some [c3ChunkA, c3ChunkB] ∧
    (∀ c ∈ c3Text, c ≠ btick) ∧
    c3ChunkA ++ c3ChunkB ≠ c3Text := by
  refine ⟨by decide, by decide, by decide⟩

theorem chunkLoop_decomp (limit : Nat) (h14 : 14 ≤ limit) :
    ∀ fuel rem cs pending lead,
    chunkLoop limit fuel rem = some cs →
    rem = (if pending then fenceOpen else []) ++ lead →
    ∃ ps : List (Str × Str × Bool),
      cs = decorate pending ps ∧ weave ps = lead ∧
      ∀ p ∈ ps, ∀ ch ∈ p.2.1, jsWhitespace ch = true := by
  intro fuel
  induction fuel with
  | zero =>
    intro rem cs pending lead h hrem
    cases rem with
    | nil =>
      simp only [chunkLoop, Option.some.injEq] at h
      subst h
      cases pending with
      | true => simp [fenceOpen] at hrem
      | false =>
        simp only [if_neg Bool.false_ne_true, List.nil_append] at hrem
        subst hrem
        exact ⟨[], rfl, rfl, by simp⟩
    | cons a as => simp [chunkLoop] at h
  | succ f ih =>
    intro rem cs pending lead h hrem
    cases hrem0 : rem with
    | nil =>
      subst hrem0
      simp only [chunkLoop, Option.some.injEq] at h
      subst h
      cases pending with
      | true => simp [fenceOpen] at hrem
      | false =>
        simp only [if_neg Bool.false_ne_true, List.nil_append] at hrem
        subst hrem
        exact ⟨[], rfl, rfl, by simp⟩
    | cons a as =>
      subst hrem0
      by_cases hle : (a :: as).length ≤ limit
      · rw [chunkLoop, if_pos hle] at h
        cases Option.some.inj h
        refine ⟨[(lead, [], false)], ?_, by simp [weave], by simp⟩
        simp [decorate, hrem]
      · rw [chunkLoop, if_neg hle] at h
        rcases Option.map_eq_some'.mp h with ⟨res, hres, rfl⟩
        -- facts about the break position
        have hlen : limit < (a :: as).length := by omega
        have hb5 : 5 ≤ breakPos limit (a :: as) := breakPos_ge5 limit _ h14
        have hble : breakPos limit (a :: as) ≤ limit := breakPos_le limit _
        set b := breakPos limit (a :: as) with hbdef
        set inj : Str := (if pending then fenceOpen else []) with hinj
        have hinjlen : inj.length ≤ 4 := by
          rw [hinj]
          cases pending <;> simp [fenceOpen]
        -- the peeled chunk decomposes as inj ++ core
        have htake : (a :: as).take b = inj ++ lead.take (b - inj.length) := by
          rw [hrem, List.take_append_eq_append_take,
            List.take_of_length_le (by omega)]
        have hdrop : (a :: as).drop b = lead.drop (b - inj.length) := by
          rw [hrem, List.drop_append_eq_append_drop,
            List.drop_eq_nil_of_le (by omega), List.nil_append]
        set core := lead.take (b - inj.length) with hcore
        set w := (lead.drop (b - inj.length)).takeWhile jsWhitespace with hw
        set rest := trimStart (lead.drop (b - inj.length)) with hrest
        have hlead : lead = core ++ (w ++ rest) := by
          conv_lhs => rw [← List.take_append_drop (b - inj.length) lead]
          rw [hcore, hw, hrest]
          congr 1
          exact (List.takeWhile_append_dropWhile _ _).symm
        have hwws : ∀ ch ∈ w, jsWhitespace ch = true := by
          intro ch hch
          exact List.mem_takeWhile_imp (hw ▸ hch)
        -- case split on the fence repair
        by_cases hodd : countFence ((a :: as).take b) % 2 ≠ 0
        · have hstep : chunkStep limit (a :: as) =
              ((a :: as).take b ++ fenceClose, fenceOpen ++ rest) := by
            unfold chunkStep
            rw [← hbdef, if_pos hodd, hrest, hdrop]
          rw [hstep] at hres
          rcases ih (fenceOpen ++ rest) res true rest hres (by simp) with
            ⟨ps', hcs', hweave', hws'⟩
          refine ⟨(core, w, true) :: ps', ?_, ?_, ?_⟩
          · rw [hstep, hcs']
            dsimp only [decorate]
            rw [htake, ← hinj]
            simp [List.append_assoc]
          · dsimp only [weave]
            rw [hweave', hlead]
            simp [List.append_assoc]
          · intro p hp
            rcases List.mem_cons.mp hp with rfl | hp'
            · exact hwws
            · exact hws' p hp'
        · have hstep : chunkStep limit (a :: as) = ((a :: as).take b, rest) := by
            unfold chunkStep
            rw [← hbdef, if_neg hodd, hrest, hdrop]
          rw [hstep] at hres
          rcases ih rest res false rest hres (by simp) with
            ⟨ps', hcs', hweave', hws'⟩
          refine ⟨(core, w, false) :: ps', ?_, ?_, ?_⟩
          · rw [hstep, hcs']
            dsimp only [decorate]
            rw [htake, ← hinj]
            simp [List.append_assoc]
          · dsimp only [weave]
            rw [hweave', hlead]
            simp [List.append_assoc]
          · intro p hp
            rcases List.mem_cons.mp hp with rfl | hp'
            · exact hwws
            · exact hws' p hp'

/-- C3 (amended): for limits ≥ 14, a terminating `chunkText` run yields
chunks of the form `decorate` applied to `(core, boundary whitespace,
repaired)` triples: deleting the injected fence-repair markers leaves the
cores, and the original text is exactly the cores joined by the (possibly
empty) all-whitespace runs that `trimStart` removed at each chunk boundary
— concatenation reproduces the text only up to that removed whitespace. -/
theorem chunkText_reassembly (text : Str) (limit fuel : Nat) (cs : List Str)
    (h14 : 14 ≤ limit) (h : chunkText text limit fuel = some cs) :
    ∃ ps : List (Str × Str × Bool),
      cs = decorate false ps ∧ weave ps = text ∧
      ∀ p ∈ ps, ∀ ch ∈ p.2.1, jsWhitespace ch = true := by
  unfold chunkText at h
  split_ifs at h with hle
  · cases Option.some.inj h
    exact ⟨[(text, [], false)], by simp [decorate], by simp [weave], by simp⟩
  · exact chunkLoop_decomp limit h14 fuel text cs false text h (by simp)

theorem chunkText_reassembly_witness :
    ∃ ps : List (Str × Str × Bool),
      [c3WitA, c3WitB] = decorate false ps ∧ weave ps = c3WitText ∧
      ∀ p ∈ ps, ∀ ch ∈ p.2.1, jsWhitespace ch = true :=
  chunkText_reassembly c3WitText 14 19 [c3WitA, c3WitB] (by decide) (by decide)

theorem countFence_short (l : Str) (h : l.length < 3) : countFence l = 0 := by
  match l with
  | [] => rfl
  | [a] => rfl
  | [a, b] => rfl
  | a :: b :: c :: t =>
    simp only [List.length_cons] at h
    omega

theorem chunkLoop_fence_head (limit : Nat) (h3 : 3 ≤ limit) :
    ∀ fuel rest cs, chunkLoop limit fuel (fenceOpen ++ rest) = some cs →
    ∃ c cs', cs = c :: cs' ∧ c.take 3 = fenceMarker := by
  intro fuel rest cs h
  have hshape : fenceOpen ++ rest =
      btick :: btick :: btick :: (Char.ofNat 10 :: rest) := rfl
  cases fuel with
  | zero =>
    rw [hshape] at h
    simp [chunkLoop] at h
  | succ f =>
    by_cases hle : (fenceOpen ++ rest).length ≤ limit
    · rw [hshape, chunkLoop, if_pos (hshape ▸ hle)] at h
      cases Option.some.inj h
      exact ⟨_, [], rfl, rfl⟩
    · rw [hshape, chunkLoop, if_neg (hshape ▸ hle)] at h
      rcases Option.map_eq_some'.mp h with ⟨res, _, rfl⟩
      rw [← hshape]
      have hb3 : 3 ≤ breakPos limit (fenceOpen ++ rest) :=
        breakPos_fenceOpen_ge3 limit rest h3
      have hlen3 : 3 ≤ (fenceOpen ++ rest).length := by
        simp [fenceOpen]
      have htk : ((fenceOpen ++ rest).take
          (breakPos limit (fenceOpen ++ rest))).take 3 = fenceMarker := by
        rw [List.take_take, min_eq_left hb3]
        rfl
      have hchunklen : 3 ≤ ((fenceOpen ++ rest).take
          (breakPos limit (fenceOpen ++ rest))).length := by
        rw [List.length_take]
        omega
      refine ⟨(chunkStep limit (fenceOpen ++ rest)).1, res, rfl, ?_⟩
      unfold chunkStep
      dsimp only
      split_ifs with hodd
      · dsimp only
        rw [List.take_append_eq_append_take]
        have h0 : 3 - ((fenceOpen ++ rest).take
            (breakPos limit (fenceOpen ++ rest))).length = 0 := by omega
        rw [h0]
        simp [htk]
      · exact htk

/-- C4: whenever an iteration of `chunkText`'s loop peels a chunk (from a
remaining text longer than `limit`) containing an odd number of
triple-backtick fence markers, that chunk is emitted with the closing fence
appended, and the chunk emitted immediately after it begins with the
reopening triple-backtick fence marker. -/
theorem chunkText_fence_repair (limit fuel : Nat) (rem : Str) (cs : List Str)
    (h : chunkLoop limit fuel rem = some cs)
    (hlen : limit < rem.length)
    (hodd : countFence (rem.take (breakPos limit rem)) % 2 = 1) :
    ∃ cs', cs = (rem.take (breakPos limit rem) ++ fenceClose) :: cs' ∧
      ∃ c cs'', cs' = c :: cs'' ∧ c.take 3 = fenceMarker := by
  obtain ⟨a, as, rfl⟩ : ∃ a as, rem = a :: as := by
    cases rem with
    | nil => simp at hlen
    | cons a as => exact ⟨a, as, rfl⟩
  cases fuel with
  | zero => simp [chunkLoop] at h
  | succ f =>
    rw [chunkLoop, if_neg (by omega)] at h
    rcases Option.map_eq_some'.mp h with ⟨res, hres, rfl⟩
    have h3 : 3 ≤ limit := by
      by_contra hlt
      have hble := breakPos_le limit (a :: as)
      have : ((a :: as).take (breakPos limit (a :: as))).length < 3 := by
        rw [List.length_take]
        omega
      rw [countFence_short _ this] at hodd
      simp at hodd
    have hstep : chunkStep limit (a :: as) =
        ((a :: as).take (breakPos limit (a :: as)) ++ fenceClose,
          fenceOpen ++ trimStart ((a :: as).drop (breakPos limit (a :: as)))) := by
      unfold chunkStep
      rw [if_pos (by omega)]
    rw [hstep] at hres
    rcases chunkLoop_fence_head limit h3 f _ res hres with ⟨c, cs'', hcs, hc3⟩
    exact ⟨res, by rw [hstep], c, cs'', hcs, hc3⟩

theorem chunkText_fence_repair_witness :
    ∃ cs', [c4ChunkA, c4ChunkB, c4ChunkC, c4ChunkD] =
        (c4Text.take (breakPos 14 c4Text) ++ fenceClose) :: cs' ∧
      ∃ c cs'', cs' = c :: cs'' ∧ c.take 3 = fenceMarker :=
  chunkText_fence_repair 14 27 c4Text [c4ChunkA, c4ChunkB, c4ChunkC, c4ChunkD]
    (by decide) (by decide) (by decide)

theorem canonical_zero : canonical 0 = [] := rfl

theorem canonical_succ (n : Nat) :
    canonical (n + 1) = canonical n ++ [QEvent.start n, QEvent.settle n] := by
  unfold canonical
  rw [List.range_succ, List.flatMap_append]
  simp

theorem canonical_mono (a n : Nat) (h : a ≤ n) :
    ∃ t, canonical a ++ t = canonical n := by
  induction n with
  | zero =>
    have ha : a = 0 := by omega
    subst ha
    exact ⟨[], by simp⟩
  | succ m ih =>
    rcases Nat.eq_or_lt_of_le h with heq | hlt
    · subst heq
      exact ⟨[], by simp⟩
    · rcases ih (by omega) with ⟨t, ht⟩
      refine ⟨t ++ [QEvent.start m, QEvent.settle m], ?_⟩
      rw [canonical_succ, ← ht, List.append_assoc]

theorem guardValue_true (ok : Bool) :
    (if handlerFor guardThen ok = true then true else ok) = true := by
  cases ok <;> rfl

theorem QInv_init (outcomes : List Bool) : QInv outcomes qinit [] := by
  refine ⟨0, false, by simp, ?_, rfl, ?_, ?_, by simp [canonical_zero]⟩
  · intro i
    simp [qinit]
  · intro i
    by_cases hi : i = 0
    · subst hi
      exact Or.inr rfl
    · simp [qinit, hi]
  · intro i hg
    by_cases hi : i = 0
    · omega
    · simp [qinit, hi] at hg

theorem QInv_step (outcomes : List Bool) (s1 s2 : QState) (tr ev : List QEvent)
    (hinv : QInv outcomes s1 tr) (hstep : QStep outcomes s1 ev s2) :
    QInv outcomes s2 (tr ++ ev) := by
  rcases hinv with ⟨a, r, hle, hops, hg0, hgv, hga, htr⟩
  cases hstep with
  | start k ok hk hg hh ho =>
    have hka : k ≤ a := by
      rcases hgv k with h | h
      · rw [h] at hg
        cases hg
      · exact hga k h
    have hwait := hops k
    rw [ho] at hwait
    have hknlt : ¬ k < a := by
      intro hklt
      rw [if_pos hklt] at hwait
      cases hwait
    have hkeq : k = a := by omega
    subst hkeq
    have hrf : r = false := by
      cases r with
      | false => rfl
      | true =>
        rw [if_neg hknlt, if_pos ⟨rfl, rfl⟩] at hwait
        cases hwait
    subst hrf
    refine ⟨k, true, by simpa using hk, ?_, hg0, hgv, ?_, ?_⟩
    · intro i
      dsimp only
      by_cases hi : i = k
      · subst hi
        simp [Function.update_same, if_neg hknlt]
      · rw [Function.update_noteq hi, hops i]
        by_cases hlt : i < k
        · simp [hlt]
        · simp [hlt, hi]
    · intro i hgi
      exact hga i hgi
    · rw [htr]
      simp
  | settle k hk ho =>
    have hrun := hops k
    rw [ho] at hrun
    have hknlt : ¬ k < a := by
      intro hklt
      rw [if_pos hklt] at hrun
      cases hrun
    have hrt : r = true ∧ k = a := by
      by_cases hc : r = true ∧ k = a
      · exact hc
      · rw [if_neg hknlt, if_neg hc] at hrun
        cases hrun
    rcases hrt with ⟨hrt, hkeq⟩
    subst hrt
    subst hkeq
    refine ⟨k + 1, false, by simpa using hle, ?_, hg0, hgv, ?_, ?_⟩
    · intro i
      dsimp only
      by_cases hi : i = k
      · subst hi
        simp [Function.update_same]
      · rw [Function.update_noteq hi, hops i]
        by_cases hlt : i < k
        · have hlt2 : i < k + 1 := by omega
          simp [hlt, hlt2]
        · have hlt2 : ¬ i < k + 1 := by omega
          simp [hlt, hlt2, hi]
    · intro i hgi
      exact le_trans (hga i hgi) (by omega)
    · rw [htr, canonical_succ]
      simp
  | guard k hk ho hg =>
    have hset := hops k
    rw [ho] at hset
    have hklt : k < a := by
      by_cases hlt : k < a
      · exact hlt
      · exfalso
        rw [if_neg hlt] at hset
        by_cases hc : r = true ∧ k = a
        · rw [if_pos hc] at hset
          cases hset
        · rw [if_neg hc] at hset
          cases hset
    refine ⟨a, r, hle, hops, ?_, ?_, ?_, by simpa using htr⟩
    · dsimp only
      rw [Function.update_noteq (by omega)]
      exact hg0
    · intro i
      dsimp only
      by_cases hi : i = k + 1
      · subst hi
        rw [Function.update_same, guardValue_true]
        exact Or.inr rfl
      · rw [Function.update_noteq hi]
        exact hgv i
    · intro i hgi
      dsimp only at hgi
      by_cases hi : i = k + 1
      · omega
      · rw [Function.update_noteq hi] at hgi
        exact hga i hgi

theorem QInv_reach (outcomes : List Bool) (s0 s : QState)
    (tr0 tr : List QEvent) (h : Reach outcomes s0 tr s) :
    QInv outcomes s0 tr0 → QInv outcomes s (tr0 ++ tr) := by
  induction h with
  | refl =>
    intro h0
    simpa using h0
  | step s1 s2 tr' ev hreach hstep ih =>
    intro h0
    rw [← List.append_assoc]
    exact QInv_step outcomes s1 s2 (tr0 ++ tr') ev (ih h0) hstep

theorem reach_canonical (outcomes : List Bool) (s : QState) (tr : List QEvent)
    (h : Reach outcomes qinit tr s) :
    ∃ t, tr ++ t = canonical outcomes.length := by
  have hinv := QInv_reach outcomes qinit s [] tr h (QInv_init outcomes)
  rcases hinv with ⟨a, r, hle, _, _, _, _, htr⟩
  rw [List.nil_append] at htr
  cases r with
  | false =>
    rw [htr]
    simpa using canonical_mono a outcomes.length (by simpa using hle)
  | true =>
    rcases canonical_mono (a + 1) outcomes.length (by simpa using hle) with ⟨t, ht⟩
    rw [canonical_succ] at ht
    refine ⟨[QEvent.settle a] ++ t, ?_⟩
    rw [htr]
    simpa using ht

theorem reach_qdone (outcomes : List Bool) :
    ∀ a, a ≤ outcomes.length →
    Reach outcomes qinit (canonical a) (qdone a) := by
  intro a
  induction a with
  | zero =>
    intro _
    have hq : qdone 0 = qinit := by
      unfold qdone qinit
      congr 1 <;> funext i <;> simp [Nat.le_zero]
    rw [canonical_zero, hq]
    exact Reach.refl qinit
  | succ a ih =>
    intro h
    have hr := ih (by omega)
    have st1 : QStep outcomes (qdone a) [QEvent.start a]
        ⟨Function.update (qdone a).ops a OpSt.running, (qdone a).guards⟩ :=
      QStep.start (qdone a) a true (by omega) (by simp [qdone]) rfl
        (by simp [qdone])
    have st2 : QStep outcomes
        ⟨Function.update (qdone a).ops a OpSt.running, (qdone a).guards⟩
        [QEvent.settle a]
        ⟨Function.update (Function.update (qdone a).ops a OpSt.running) a
          OpSt.settled, (qdone a).guards⟩ :=
      QStep.settle _ a (by omega) (by simp [Function.update_same])
    have st3 : QStep outcomes
        ⟨Function.update (Function.update (qdone a).ops a OpSt.running) a
          OpSt.settled, (qdone a).guards⟩ []
        ⟨Function.update (Function.update (qdone a).ops a OpSt.running) a
          OpSt.settled,
          Function.update (qdone a).guards (a + 1)
            (some (if handlerFor guardThen (outcomes.getD a true) then true
              else outcomes.getD a true))⟩ :=
      QStep.guard _ a (by omega) (by simp [Function.update_same])
        (by simp [qdone])
    have hfin := Reach.step _ _ _ _ _
      (Reach.step _ _ _ _ _ (Reach.step _ _ _ _ _ hr st1) st2) st3
    have hs3 : (⟨Function.update (Function.update (qdone a).ops a OpSt.running)
        a OpSt.settled,
        Function.update (qdone a).guards (a + 1)
          (some (if handlerFor guardThen (outcomes.getD a true) then true
            else outcomes.getD a true))⟩ : QState) = qdone (a + 1) := by
      rw [guardValue_true]
      unfold qdone
      congr 1
      · funext i
        by_cases hi : i = a
        · subst hi
          simp [Function.update_same]
        · rw [Function.update_noteq hi, Function.update_noteq hi]
          simp only [qdone]
          by_cases hlt : i < a
          · rw [if_pos hlt, if_pos (by omega)]
          · rw [if_neg hlt, if_neg (by omega)]
      · funext i
        by_cases hi : i = a + 1
        · subst hi
          simp [Function.update_same]
        · rw [Function.update_noteq hi]
          simp only [qdone]
          by_cases hle2 : i ≤ a
          · rw [if_pos hle2, if_pos (by omega)]
          · rw [if_neg hle2, if_neg (by omega)]
    rw [hs3] at hfin
    have htr2 : ((canonical a ++ [QEvent.start a]) ++ [QEvent.settle a]) ++ [] =
        canonical (a + 1) := by
      rw [canonical_succ]
      simp
    rw [htr2] at hfin
    exact hfin

/-- C1: for a user's chain of enqueued operations with arbitrary prescribed
outcomes (including rejections), every event trace reachable from the
initial chain state extends to the strictly sequential trace `canonical n`
(operation `k+1` starts only after operation `k` has settled, and no two
operations overlap), and the full sequential trace in which every
operation — even after rejections — starts and settles is reachable. -/
theorem enqueueForUser_serial (outcomes : List Bool) :
    (∀ s tr, Reach outcomes qinit tr s →
      ∃ t, tr ++ t = canonical outcomes.length) ∧
    ∃ s, Reach outcomes qinit (canonical outcomes.length) s ∧
      ∀ i, i < outcomes.length → s.ops i = OpSt.settled := by
  constructor
  · intro s tr h
    exact reach_canonical outcomes s tr h
  · refine ⟨qdone outcomes.length, reach_qdone outcomes outcomes.length (le_refl _), ?_⟩
    intro i hi
    simp [qdone, hi]

theorem enqueueForUser_serial_witness :
    ∃ t, [QEvent.start 0] ++ t = canonical 2 :=
  (enqueueForUser_serial [true, false]).1
    ⟨Function.update qinit.ops 0 OpSt.running, qinit.guards⟩ [QEvent.start 0]
    (Reach.step qinit qinit
      ⟨Function.update qinit.ops 0 OpSt.running, qinit.guards⟩ [] [QEvent.start 0]
      (Reach.refl qinit)
      (QStep.start qinit 0 true (by decide) rfl rfl rfl))

/-!
Session lifecycle: the single-retry guard of `runClaude` (`src/index.ts`)
and the unbounded retry of `sendPrompt` (`src/unnamed/part_000`).
-/

theorem runClaude_retry_consumes_one (outs : List ClaudeOutput)
    (sess : Option UserSession) (r : Except Str RunResult)
    (s2 : Option UserSession) (n : Nat)
    (h : runClaude sess outs true = some (r, s2, n)) : n = 1 := by
  cases outs with
  | nil => simp [runClaude] at h
  | cons o rest =>
    cases o with
    | threw m =>
      simp only [runClaude, Option.some.injEq, Prod.mk.injEq] at h
      omega
    | unparsed so se =>
      rw [runClaude] at h
      rw [show (!true && sessionTruthy sess && expiredMarker so) = false by
        simp] at h
      simp only [Bool.false_eq_true, if_false, Option.some.injEq,
        Prod.mk.injEq] at h
      omega
    | parsed sid cost res isErr =>
      simp only [runClaude, Option.some.injEq, Prod.mk.injEq] at h
      omega

theorem runClaude_calls_le_two (outs : List ClaudeOutput)
    (sess : Option UserSession) (r : Except Str RunResult)
    (s2 : Option UserSession) (n : Nat)
    (h : runClaude sess outs false = some (r, s2, n)) : n ≤ 2 := by
  cases outs with
  | nil => simp [runClaude] at h
  | cons o rest =>
    cases o with
    | threw m =>
      simp only [runClaude, Option.some.injEq, Prod.mk.injEq] at h
      omega
    | parsed sid cost res isErr =>
      simp only [runClaude, Option.some.injEq, Prod.mk.injEq] at h
      omega
    | unparsed so se =>
      by_cases hc : (sessionTruthy sess && expiredMarker so) = true
      · rw [runClaude] at h
        rw [show (!false && sessionTruthy sess && expiredMarker so) =
            true by simp [Bool.and_assoc, hc]] at h
        simp only [if_true] at h
        cases hrec : runClaude none rest true with
        | none => rw [hrec] at h; cases h
        | some trip =>
          obtain ⟨r', s2', n'⟩ := trip
          rw [hrec] at h
          simp only [Option.some.injEq, Prod.mk.injEq] at h
          have := runClaude_retry_consumes_one rest none r' s2' n' hrec
          omega
      · rw [runClaude] at h
        rw [show (!false && sessionTruthy sess && expiredMarker so) =
            false by simpa [Bool.and_assoc] using hc] at h
        simp only [Bool.false_eq_true, if_false, Option.some.injEq,
          Prod.mk.injEq] at h
        omega

theorem runClaude_single_retry (sess : Option UserSession) :
    (∀ so se rest, sessionTruthy sess = true → expiredMarker so = true →
      runClaude sess (ClaudeOutput.unparsed so se :: rest) false =
        (match runClaude none rest true with
         | none => none
         | some (r, s2, n) => some (r, s2, n + 1))) ∧
    (∀ so se so' se' rest, sessionTruthy sess = true →
      expiredMarker so = true → expiredMarker so' = true →
      runClaude sess
        (ClaudeOutput.unparsed so se :: ClaudeOutput.unparsed so' se' :: rest)
        false =
        some (Except.ok ⟨strOrElse so' (strOrElse se' claudeNoOutput),
          [], 0, true⟩, none, 2)) := by
  constructor
  · intro so se rest ht hm
    rw [runClaude]
    rw [show (!false && sessionTruthy sess && expiredMarker so) = true by
      simp [Bool.and_assoc, ht, hm]]
    simp only [if_true]
  · intro so se so' se' rest ht hm hm'
    rw [runClaude]
    rw [show (!false && sessionTruthy sess && expiredMarker so) = true by
      simp [Bool.and_assoc, ht, hm]]
    simp only [if_true]
    rw [runClaude]
    rw [show (!true && sessionTruthy none && expiredMarker so') = false by
      simp]
    simp [sessionIdOrEmpty]


/-- C5 (code divergence, remote variant): with a backend that answers every
create request with a fresh session and every message request with a
session-gone error (text containing `404` / `No conversation`), the remote
variant's `sendPrompt` never returns: for every retry bound `fuel` below
the supply of backend responses it runs out of fuel — the source deletes
the session and recurses with no `isRetry` guard, so the retry loop is
unbounded, unlike `runClaude`'s single guarded retry. -/
theorem sendPrompt_unbounded_retry (fuel n : Nat) (h : fuel < n) :
    sendPrompt fuel none (badEvs n) = none := by
  induction fuel generalizing n with
  | zero =>
    obtain ⟨m, rfl⟩ : ∃ m, n = m + 1 := ⟨n - 1, by omega⟩
    rw [badEvs, sendPrompt]
    have hg : goneMarker badGone = true := by decide
    simp [msgStep, hg]
  | succ f ih =>
    obtain ⟨m, rfl⟩ : ∃ m, n = m + 1 := ⟨n - 1, by omega⟩
    rw [badEvs, sendPrompt]
    have hg : goneMarker badGone = true := by decide
    simp only [msgStep, hg, if_true]
    rw [ih m (by omega)]
    rfl

theorem sendPrompt_unbounded_retry_witness :
    sendPrompt 3 none (badEvs 4) = none :=
  sendPrompt_unbounded_retry 3 4 (by decide)

/-- C6: a successfully parsed prompt response with reported cost `c`
updates the stored session so that `totalCost` becomes the previous total
plus `c`; two successful prompts with costs `c1` and `c2` starting from a
fresh session leave `totalCost = c1 + c2` exactly, and for non-negative
reported costs `totalCost` never decreases. -/
theorem totalCost_additive (c1 c2 : ℚ) (sid1 sid2 : Option Str)
    (res1 res2 : Option Str) (ie1 ie2 : Option Bool) :
    ∃ r1 r2 s1 s2,
      runClaude none [ClaudeOutput.parsed sid1 (some c1) res1 ie1] false =
        some (Except.ok r1, some s1, 1) ∧
      s1.totalCost = 0 + c1 ∧
      runClaude (some s1) [ClaudeOutput.parsed sid2 (some c2) res2 ie2] false =
        some (Except.ok r2, some s2, 1) ∧
      s2.totalCost = s1.totalCost + c2 ∧
      s2.totalCost = c1 + c2 ∧
      (0 ≤ c1 → 0 ≤ c2 →
        sessionCost none ≤ s1.totalCost ∧ s1.totalCost ≤ s2.totalCost) := by
  refine ⟨⟨res1.getD doneNoText, sid1.getD [], c1, ie1.getD false⟩,
    ⟨res2.getD doneNoText, sid2.getD (sid1.getD []), c2, ie2.getD false⟩,
    ⟨some (sid1.getD []), 0 + c1⟩,
    ⟨some (sid2.getD (sid1.getD [])), 0 + c1 + c2⟩, ?_, rfl, ?_, rfl, ?_, ?_⟩
  · rfl
  · rfl
  · ring
  · intro h1 h2
    constructor
    · simpa [sessionCost] using h1
    · simp only []
      linarith

theorem totalCost_additive_witness :
    ∃ r1 r2 s1 s2,
      runClaude none [ClaudeOutput.parsed none (some (1/100)) none none]
          false = some (Except.ok r1, some s1, 1) ∧
      s1.totalCost = 0 + 1/100 ∧
      runClaude (some s1) [ClaudeOutput.parsed none (some (2/100)) none none]
          false = some (Except.ok r2, some s2, 1) ∧
      s2.totalCost = s1.totalCost + 2/100 ∧
      s2.totalCost = 1/100 + 2/100 ∧
      (0 ≤ (1 : ℚ)/100 → 0 ≤ (2 : ℚ)/100 →
        sessionCost none ≤ s1.totalCost ∧ s1.totalCost ≤ s2.totalCost) :=
  totalCost_additive (1/100) (2/100) none none none none none none

/-- C7: for any text that lower-cases to `/abort`, the command router
performs no cancellation and replies `No active prompt.` when the user has
no in-flight process, and kills the in-flight process, removes it from the
active map, and replies `Prompt cancelled.` when one exists; the session
entry is untouched in both cases. -/
theorem handleTextMessage_abort (sess : Option UserSession)
    (active : Option Nat) (text : Str) (h : jsToLower text = abortCmd) :
    (active = none →
      handleTextMessage sess active text =
        ⟨RouteResult.replyText noActiveMsg, sess, none, none⟩) ∧
    (∀ p, active = some p →
      handleTextMessage sess active text =
        ⟨RouteResult.replyText cancelledMsg, sess, none, some p⟩) := by
  have hne : jsToLower text ≠ newCmd := by
    rw [h]
    decide
  constructor
  · intro ha
    subst ha
    unfold handleTextMessage
    rw [if_neg hne, if_pos h]
  · intro p ha
    subst ha
    unfold handleTextMessage
    rw [if_neg hne, if_pos h]

theorem handleTextMessage_abort_witness :
    handleTextMessage none (some 7) c7AbortMixed =
      ⟨RouteResult.replyText cancelledMsg, none, none, some 7⟩ :=
  (handleTextMessage_abort none (some 7) c7AbortMixed (by decide)).2 7 rfl

/-- C8 counterexample: an `isError` result is surfaced as `Error: ` ++
result with no truncation, so with a 5001-character backend result the
user-visible error text has 5008 characters — above both truncation
constants appearing in the source (the 200-character slice for thrown
errors and the 5000-character LINE text limit). -/
theorem userErrorText_counterexample :
    ¬((userErrorText (PromptErrOutcome.errResult
        (List.replicate 5001 (Char.ofNat 97)))).length ≤ 5000) := by
  have he : userErrorText (PromptErrOutcome.errResult
      (List.replicate 5001 (Char.ofNat 97))) =
      errLabel ++ List.replicate 5001 (Char.ofNat 97) := rfl
  have hl : errLabel.length = 7 := rfl
  rw [he, List.length_append, hl, List.length_replicate]
  omega

theorem sendMessageChunks_le (text : Str) (c : Str)
    (hc : c ∈ sendMessageChunks text) : c.length ≤ 5004 := by
  unfold sendMessageChunks at hc
  cases hopt : chunkText text LINE_MAX_TEXT text.length with
  | none =>
    have hs : (chunkText text LINE_MAX_TEXT text.length).isSome = true := by
      unfold chunkText
      split_ifs with hfit
      · rfl
      · exact chunkLoop_isSome LINE_MAX_TEXT (by norm_num [LINE_MAX_TEXT])
          text.length text (le_refl _)
    rw [hopt] at hs
    cases hs
  | some cs =>
    rw [hopt] at hc
    simp only [Option.getD_some] at hc
    have := (chunkText_chunk_le text LINE_MAX_TEXT text.length cs hopt c hc).1
    have hL : LINE_MAX_TEXT = 5000 := rfl
    omega

/-- C8 (amended): only thrown errors are truncated — the surfaced text for
a thrown error has at most 207 characters (`Error: ` plus the first 200 of
the message, or `Unknown error`); an `isError` result is surfaced
untruncated as `Error: ` ++ result, of unbounded total length, and the
only bound that holds for it is per delivered message: every chunk pushed
by `sendMessage` has at most 5004 characters. -/
theorem userErrorText_bounds :
    (∀ m, (userErrorText (PromptErrOutcome.thrownMsg m)).length ≤ 207) ∧
    (∀ r, userErrorText (PromptErrOutcome.errResult r) = errLabel ++ r) ∧
    (∀ e c, c ∈ sendMessageChunks (userErrorText e) → c.length ≤ 5004) := by
  refine ⟨?_, fun r => rfl, fun e c hc => sendMessageChunks_le _ c hc⟩
  intro m
  have hl : errLabel.length = 7 := rfl
  cases m with
  | none =>
    have : userErrorText (PromptErrOutcome.thrownMsg none) =
        errLabel ++ unknownErrMsg := rfl
    rw [this, List.length_append, hl]
    have : unknownErrMsg.length = 13 := rfl
    omega
  | some s =>
    have : userErrorText (PromptErrOutcome.thrownMsg (some s)) =
        errLabel ++ s.take 200 := rfl
    rw [this, List.length_append, hl, List.length_take]
    omega

theorem userErrorText_bounds_witness :
    (userErrorText (PromptErrOutcome.thrownMsg none)).length ≤ 207 ∧
    ((userErrorText (PromptErrOutcome.errResult c8Short)).length ≤ 5004 ∧
      userErrorText (PromptErrOutcome.errResult c8Short) ∈
        sendMessageChunks (userErrorText (PromptErrOutcome.errResult c8Short))) := by
  refine ⟨userErrorText_bounds.1 none, ?_, ?_⟩
  · exact userErrorText_bounds.2.2 (PromptErrOutcome.errResult c8Short)
      (userErrorText (PromptErrOutcome.errResult c8Short)) (by decide)
  · decide
